import Mathlib

/-!
Shallow embedding of `src/python/benchmark.py`, a SQLite micro-benchmark
harness.  The synthetic `users` table is modelled as a list of rows in
rowid order; each benchmark step becomes a pure state transformer, with
fallible variants (`Except`) modelling database errors raised mid-step so
that transaction semantics (single commit versus commit-per-row) can be
stated.
-/

set_option maxHeartbeats 1000000

/-- A row of the `users` table:
`id INTEGER PRIMARY KEY, name TEXT NOT NULL, email TEXT NOT NULL, age INTEGER NOT NULL`
(source lines 14–21). -/
structure Row where
  id : Nat
  name : String
  email : String
  age : Nat
deriving Repr, DecidableEq

/-- The state of the `users` table: its rows in rowid order. -/
abbrev Table := List Row

/-- The largest id present in the table (`0` for the empty table). -/
def maxId : Table → Nat
  | [] => 0
  | r :: rs => max r.id (maxId rs)

/-- The rowid SQLite assigns to a row inserted without an explicit id:
one more than the current maximum rowid. -/
def nextRowId (t : Table) : Nat := maxId t + 1

/-- `INSERT INTO users (name, email, age) VALUES (?, ?, ?)` (source lines 33–36
and 50–53): append a row with the auto-assigned rowid. -/
def insertUser (name email : String) (age : Nat) (t : Table) : Table :=
  t ++ [⟨nextRowId t, name, email, age⟩]

/-- Run a list of fallible statements between one `BEGIN TRANSACTION` and one
`conn.commit()`: if every statement succeeds the final state is committed; if
any statement raises, the exception propagates before the commit is reached and
the open transaction is rolled back, leaving the table as it was. -/
def txRun (steps : List (Table → Except String Table)) (t : Table) : Table :=
  match steps.foldlM (fun s f => f s) t with
  | Except.ok s => s
  | Except.error _ => t

/-- Run a list of fallible statements with `conn.commit()` after each one
(source lines 49–54): an exception keeps all work already committed and
propagates, abandoning the remaining statements. -/
def commitEach (steps : List (Table → Except String Table)) (t : Table) : Table :=
  match steps with
  | [] => t
  | f :: rest =>
    match f t with
    | Except.ok s => commitEach rest s
    | Except.error _ => t

/-- The row the `benchmark_batch_insert` loop body at index `i` produces when
the table before it holds rows with ids `1..i`: id `i+1`, name `User<i>`,
email `user<i>@example.com`, age `20 + (i % 50)` (source line 35). -/
def mkUserRow (i : Nat) : Row :=
  ⟨i + 1, "User" ++ toString i, "user" ++ toString i ++ "@example.com", 20 + i % 50⟩

/-- One iteration of the `benchmark_batch_insert` loop (source lines 32–36). -/
def batchInsertStep (i : Nat) (t : Table) : Table :=
  insertUser ("User" ++ toString i) ("user" ++ toString i ++ "@example.com") (20 + i % 50) t

/-- `benchmark_batch_insert` (source lines 25–40), error-free run: the loop
body for `i` in `[0, count)` inside one transaction. -/
def benchmark_batch_insert (count : Nat) (t : Table) : Table :=
  (List.range count).foldl (fun tb i => batchInsertStep i tb) t

/-- `benchmark_batch_insert` where the insert at loop index `i` raises a
database error iff `fail i = true`; the statements run inside one transaction
(`txRun`), so an error rolls everything back. -/
def fallibleBatchInsert (count : Nat) (fail : Nat → Bool) (t : Table) : Table :=
  txRun ((List.range count).map (fun i s =>
    if fail i then Except.error "db error" else Except.ok (batchInsertStep i s))) t

/-- The row the `benchmark_single_inserts` loop body at index `i` produces when
the table before it has maximum id `n + i`: id `n+i+1`, name `SingleUser<i>`,
email `single<i>@example.com`, age `25 + (i % 40)` (source line 52). -/
def mkSingleRow (n i : Nat) : Row :=
  ⟨n + i + 1, "SingleUser" ++ toString i, "single" ++ toString i ++ "@example.com", 25 + i % 40⟩

/-- One iteration of the `benchmark_single_inserts` loop (source lines 49–53). -/
def singleInsertStep (i : Nat) (t : Table) : Table :=
  insertUser ("SingleUser" ++ toString i) ("single" ++ toString i ++ "@example.com") (25 + i % 40) t

/-- `benchmark_single_inserts` (source lines 43–56), error-free run: the loop
body for `i` in `[0, count)`, committing after every row. -/
def benchmark_single_inserts (count : Nat) (t : Table) : Table :=
  commitEach ((List.range count).map (fun i s => Except.ok (singleInsertStep i s))) t

/-- `benchmark_single_inserts` where the insert at loop index `i` raises a
database error iff `fail i = true`; each row is committed separately
(`commitEach`), so rows inserted before the error stay. -/
def fallibleSingleInserts (count : Nat) (fail : Nat → Bool) (t : Table) : Table :=
  commitEach ((List.range count).map (fun i s =>
    if fail i then Except.error "db error" else Except.ok (singleInsertStep i s))) t

theorem maxId_append (s t : Table) : maxId (s ++ t) = max (maxId s) (maxId t) := by
  induction s with
  | nil => simp [maxId]
  | cons r rs ih => simp [maxId, ih, Nat.max_assoc]

theorem maxId_map_mkUserRow (n : Nat) :
    maxId ((List.range n).map mkUserRow) = n := by
  induction n with
  | zero => simp [maxId]
  | succ k ih =>
    rw [List.range_succ, List.map_append]
    simp [maxId_append, ih, maxId, mkUserRow]

theorem batch_insert_empty_eq (N : Nat) :
    benchmark_batch_insert N [] = (List.range N).map mkUserRow := by
  induction N with
  | zero => simp [benchmark_batch_insert]
  | succ k ih =>
    unfold benchmark_batch_insert at ih ⊢
    rw [List.range_succ, List.foldl_append, ih]
    simp only [List.foldl_cons, List.foldl_nil]
    rw [List.map_append]
    simp [batchInsertStep, insertUser, nextRowId, maxId_map_mkUserRow, mkUserRow]

theorem commitEach_ok_map (g : Nat → Table → Table) (l : List Nat) (t : Table) :
    commitEach (l.map (fun i s => Except.ok (g i s))) t
      = l.foldl (fun s i => g i s) t := by
  induction l generalizing t with
  | nil => simp [commitEach]
  | cons i rest ih => simp [commitEach, ih]

theorem maxId_map_mkSingleRow (n M : Nat) :
    max n (maxId ((List.range M).map (mkSingleRow n))) = n + M := by
  induction M with
  | zero => simp [maxId]
  | succ k ih =>
    rw [List.range_succ, List.map_append]
    rw [maxId_append]
    simp only [maxId, mkSingleRow]
    omega

theorem single_fold (t : Table) (n : Nat) (h : maxId t = n) (M : Nat) :
    (List.range M).foldl (fun s i => singleInsertStep i s) t
      = t ++ (List.range M).map (mkSingleRow n) := by
  induction M with
  | zero => simp
  | succ k ih =>
    rw [List.range_succ, List.foldl_append, ih]
    simp only [List.foldl_cons, List.foldl_nil]
    rw [List.map_append]
    simp only [singleInsertStep, insertUser, nextRowId, maxId_append, h,
      maxId_map_mkSingleRow]
    simp [mkSingleRow, List.append_assoc]

theorem single_inserts_eq (t : Table) (n : Nat) (h : maxId t = n) (M : Nat) :
    benchmark_single_inserts M t = t ++ (List.range M).map (mkSingleRow n) := by
  unfold benchmark_single_inserts
  rw [commitEach_ok_map]
  exact single_fold t n h M

theorem foldlM_ifFail (fail : Nat → Bool) (g : Nat → Table → Table)
    (l : List Nat) (t : Table) :
    (l.map (fun i s =>
        if fail i then Except.error "db error" else Except.ok (g i s))).foldlM
        (fun s f => f s) t
      = Except.ok (l.foldl (fun s i => g i s) t)
    ∨ (l.map (fun i s =>
        if fail i then Except.error "db error" else Except.ok (g i s))).foldlM
        (fun s f => f s) t
      = Except.error "db error" := by
  induction l generalizing t with
  | nil => left; rfl
  | cons i rest ih =>
    by_cases hf : fail i = true
    · right
      simp only [List.map_cons, List.foldlM, hf, if_true]
      rfl
    · have hf2 : fail i = false := by
        cases hfi : fail i
        · rfl
        · exact absurd hfi hf
      rcases ih (g i t) with hok | herr
      · left
        simp only [List.map_cons, List.foldlM, hf2, if_false, List.foldl_cons]
        simpa using hok
      · right
        simp only [List.map_cons, List.foldlM, hf2, if_false]
        simpa using herr

theorem commitEach_fail (fail : Nat → Bool) (g : Nat → Table → Table)
    (l : List Nat) (t : Table) :
    ∃ l1 l2, l = l1 ++ l2 ∧
      commitEach (l.map (fun i s =>
        if fail i then Except.error "db error" else Except.ok (g i s))) t
      = l1.foldl (fun s i => g i s) t := by
  induction l generalizing t with
  | nil => exact ⟨[], [], rfl, rfl⟩
  | cons i rest ih =>
    by_cases hf : fail i = true
    · refine ⟨[], i :: rest, rfl, ?_⟩
      simp [commitEach, hf]
    · have hf2 : fail i = false := by
        cases hfi : fail i
        · rfl
        · exact absurd hfi hf
      obtain ⟨l1, l2, heq, hrun⟩ := ih (g i t)
      refine ⟨i :: l1, l2, by rw [heq, List.cons_append], ?_⟩
      simp only [List.map_cons, commitEach, hf2, if_false, List.foldl_cons]
      exact hrun

/-- C1: batch insert(N) on a freshly created empty `users` table leaves
exactly N rows with ids 1..N, where the row at loop index `i` has name
`User<i>`, email `user<i>@example.com`, and age `20 + (i % 50)`; and all the
inserts form one atomic unit of work — a run in which any insert raises leaves
the table exactly as it was, and an error-free run commits all of them. -/
theorem batch_insert_correct (N : Nat) :
    (benchmark_batch_insert N []).length = N ∧
    (∀ i, i < N → (benchmark_batch_insert N [])[i]? = some (mkUserRow i)) ∧
    (∀ (fail : Nat → Bool) (t : Table),
      fallibleBatchInsert N fail t = benchmark_batch_insert N t ∨
      fallibleBatchInsert N fail t = t) := by
  refine ⟨?_, ?_, ?_⟩
  · rw [batch_insert_empty_eq]
    simp
  · intro i hi
    rw [batch_insert_empty_eq, List.getElem?_map, List.getElem?_range hi]
    rfl
  · intro fail t
    rcases foldlM_ifFail fail batchInsertStep (List.range N) t with hok | herr
    · left
      unfold fallibleBatchInsert txRun
      rw [hok]
      rfl
    · right
      unfold fallibleBatchInsert txRun
      rw [herr]

/-- Witness for C1 at N = 3, i = 1. -/
theorem batch_insert_correct_witness :
    (benchmark_batch_insert 3 [])[1]? = some (mkUserRow 1) :=
  (batch_insert_correct 3).2.1 1 (by decide)

/-- C6: running single inserts(M) after batch insert(N) on a fresh table
leaves exactly N + M rows; the new row at loop index `i` (sitting at position
N + i) has name `SingleUser<i>`, email `single<i>@example.com`, and age
`25 + (i % 40)`; and each row is committed separately — a run in which some
insert raises still keeps the rows inserted before it, i.e. it equals an
error-free run of some k ≤ M single inserts. -/
theorem single_inserts_correct (N M : Nat) :
    (benchmark_single_inserts M (benchmark_batch_insert N [])).length = N + M ∧
    (∀ i, i < M →
      (benchmark_single_inserts M (benchmark_batch_insert N []))[N + i]?
        = some (mkSingleRow N i)) ∧
    (∀ (fail : Nat → Bool) (t : Table),
      ∃ k, k ≤ M ∧ fallibleSingleInserts M fail t = benchmark_single_inserts k t) := by
  have hmax : maxId (benchmark_batch_insert N []) = N := by
    rw [batch_insert_empty_eq]
    exact maxId_map_mkUserRow N
  have heq := single_inserts_eq (benchmark_batch_insert N []) N hmax M
  have hlen : (benchmark_batch_insert N []).length = N := by
    rw [batch_insert_empty_eq]
    simp
  refine ⟨?_, ?_, ?_⟩
  · rw [heq]
    simp [hlen]
  · intro i hi
    rw [heq]
    rw [List.getElem?_append_right (by omega)]
    rw [hlen]
    have : N + i - N = i := by omega
    rw [this, List.getElem?_map, List.getElem?_range hi]
    rfl
  · intro fail t
    obtain ⟨l1, l2, hsplit, hrun⟩ :=
      commitEach_fail fail singleInsertStep (List.range M) t
    refine ⟨l1.length, ?_, ?_⟩
    · have := congrArg List.length hsplit
      simp at this
      omega
    · have hlen2 : l1.length ≤ M := by
        have := congrArg List.length hsplit
        simp at this
        omega
      have hl1 : l1 = List.range l1.length := by
        have h2 : (List.range M).take l1.length = l1 := by
          rw [hsplit]
          exact List.take_left l1 l2
        have h3 := List.take_range l1.length M
        rw [h2] at h3
        have hmin : min l1.length M = l1.length := by omega
        rw [hmin] at h3
        exact h3
      unfold fallibleSingleInserts
      rw [hrun]
      unfold benchmark_single_inserts
      rw [commitEach_ok_map]
      rw [← hl1]

/-- Witness for C6 at N = 2, M = 3, i = 1. -/
theorem single_inserts_correct_witness :
    (benchmark_single_inserts 3 (benchmark_batch_insert 2 []))[2 + 1]?
      = some (mkSingleRow 2 1) :=
  (single_inserts_correct 2 3).2.1 1 (by decide)

/-- `benchmark_batch_delete` (source lines 116–125): one statement
`DELETE FROM users WHERE id <= ?` inside a transaction — the rows whose id
exceeds `count` survive, in order. -/
def benchmark_batch_delete (count : Nat) (t : Table) : Table :=
  t.filter (fun r => decide (count < r.id))

/-- The ids of `t` are contiguous from 1: the row at position `j` has id `j + 1`. -/
def contiguousIds (t : Table) : Prop :=
  t.map Row.id = (List.range t.length).map (fun j => j + 1)

/-- One iteration of the `benchmark_batch_update` loop (source lines 105–109):
`UPDATE users SET age = ? WHERE id = ?` with age `30 + (i % 30)` and id `i + 1`. -/
def updateAgeStep (i : Nat) (t : Table) : Table :=
  t.map (fun r => if r.id = i + 1 then { r with age := 30 + i % 30 } else r)

/-- `benchmark_batch_update` (source lines 98–113), error-free run: the loop
body for `i` in `[0, count)` inside one transaction. -/
def benchmark_batch_update (count : Nat) (t : Table) : Table :=
  (List.range count).foldl (fun tb i => updateAgeStep i tb) t

/-- The pointwise effect of `benchmark_batch_update count` on one row: a row
whose id lies in `[1, count]` gets age `30 + ((id - 1) % 30)`; all other rows
are untouched. -/
def updRow (count : Nat) (r : Row) : Row :=
  if 1 ≤ r.id ∧ r.id ≤ count then { r with age := 30 + (r.id - 1) % 30 } else r

theorem countP_range_lt_succ (c n : Nat) :
    (List.range n).countP (fun j => decide (c < j + 1)) = n - c := by
  induction n with
  | zero => simp
  | succ k ih =>
    rw [List.range_succ, List.countP_append, ih]
    by_cases h : c < k + 1
    · simp only [List.countP_cons, List.countP_nil, h]
      simp
      omega
    · simp only [List.countP_cons, List.countP_nil, h]
      simp
      omega

theorem batch_delete_length_contiguous (c : Nat) (t : Table)
    (h : contiguousIds t) :
    (benchmark_batch_delete c t).length = t.length - c := by
  unfold benchmark_batch_delete
  rw [← List.countP_eq_length_filter]
  have h2 := congrArg (List.countP (fun i => decide (c < i))) h
  rw [List.countP_map, List.countP_map] at h2
  have h3 : (List.range t.length).countP
      ((fun i => decide (c < i)) ∘ fun j => j + 1)
      = (List.range t.length).countP (fun j => decide (c < j + 1)) := by
    apply List.countP_congr
    intro j _
    rfl
  rw [h3, countP_range_lt_succ] at h2
  exact h2

/-- C4: for every count `c` and table state, batch delete(c) keeps exactly the
rows whose id exceeds `c` (so it removes exactly those with id ≤ c), preserving
the relative order of the survivors; when the ids are contiguous from 1, the
row count afterwards is `total - c` with truncation at zero. -/
theorem batch_delete_correct (c : Nat) (t : Table) :
    (∀ r : Row, r ∈ benchmark_batch_delete c t ↔ (r ∈ t ∧ c < r.id)) ∧
    (benchmark_batch_delete c t).Sublist t ∧
    (contiguousIds t → (benchmark_batch_delete c t).length = t.length - c) := by
  refine ⟨?_, ?_, batch_delete_length_contiguous c t⟩
  · intro r
    unfold benchmark_batch_delete
    rw [List.mem_filter]
    simp
  · exact List.filter_sublist t

/-- Witness for C4 at c = 2 on a three-row contiguous table. -/
theorem batch_delete_correct_witness :
    contiguousIds [⟨1, "a", "a", 21⟩, ⟨2, "b", "b", 22⟩, ⟨3, "c", "c", 23⟩] ∧
    (benchmark_batch_delete 2
      [⟨1, "a", "a", 21⟩, ⟨2, "b", "b", 22⟩, ⟨3, "c", "c", 23⟩]).length
      = 3 - 2 :=
  ⟨by rfl,
    (batch_delete_correct 2
      [⟨1, "a", "a", 21⟩, ⟨2, "b", "b", 22⟩, ⟨3, "c", "c", 23⟩]).2.2 (by rfl)⟩

theorem updRow_step (c : Nat) (r : Row) :
    (if (updRow c r).id = c + 1
      then { updRow c r with age := 30 + c % 30 } else updRow c r)
      = updRow (c + 1) r := by
  obtain ⟨rid, rname, remail, rage⟩ := r
  unfold updRow
  by_cases h1 : rid = c + 1
  · subst h1
    have hcond : ¬ (1 ≤ c + 1 ∧ c + 1 ≤ c) := by omega
    have hcond2 : 1 ≤ c + 1 ∧ c + 1 ≤ c + 1 := by omega
    simp [hcond, hcond2]
  · by_cases h2 : 1 ≤ rid ∧ rid ≤ c
    · have hcond2 : 1 ≤ rid ∧ rid ≤ c + 1 := by omega
      simp [h2, hcond2, h1]
    · by_cases h3 : 1 ≤ rid ∧ rid ≤ c + 1
      · exfalso
        omega
      · simp [h2, h3, h1]

theorem batch_update_eq_map (c : Nat) (t : Table) :
    benchmark_batch_update c t = t.map (updRow c) := by
  induction c with
  | zero =>
    unfold benchmark_batch_update
    simp only [List.range_zero, List.foldl_nil]
    have h0 : ∀ r ∈ t, updRow 0 r = id r := by
      intro r _
      have hc : ¬ (1 ≤ r.id ∧ r.id ≤ 0) := by omega
      unfold updRow
      rw [if_neg hc]
      rfl
    rw [List.map_congr_left h0, List.map_id]
  | succ c ih =>
    unfold benchmark_batch_update at ih ⊢
    rw [List.range_succ, List.foldl_append, ih]
    simp only [List.foldl_cons, List.foldl_nil]
    unfold updateAgeStep
    rw [List.map_map]
    apply List.map_congr_left
    intro r _
    simp only [Function.comp_apply]
    exact updRow_step c r

theorem updRow_idem (c : Nat) (r : Row) : updRow c (updRow c r) = updRow c r := by
  obtain ⟨rid, rname, remail, rage⟩ := r
  unfold updRow
  by_cases h : 1 ≤ rid ∧ rid ≤ c
  · simp [h]
  · simp [h]

/-- C8: batch update(c) is idempotent — running it twice with the same count
gives the same table as running it once — and each affected row's final age is
`30 + ((id - 1) % 30)`, i.e. `30 + (i % 30)` for the loop index `i = id - 1`,
independent of the row's prior age. -/
theorem batch_update_idempotent (c : Nat) (t : Table) :
    benchmark_batch_update c (benchmark_batch_update c t)
      = benchmark_batch_update c t ∧
    (∀ (j : Nat) (r : Row), t[j]? = some r → 1 ≤ r.id → r.id ≤ c →
      (benchmark_batch_update c t)[j]?
        = some { r with age := 30 + (r.id - 1) % 30 }) := by
  constructor
  · rw [batch_update_eq_map, batch_update_eq_map, List.map_map]
    apply List.map_congr_left
    intro r _
    simp only [Function.comp_apply]
    exact updRow_idem c r
  · intro j r hj h1 h2
    rw [batch_update_eq_map, List.getElem?_map, hj]
    have hupd : updRow c r = { r with age := 30 + (r.id - 1) % 30 } := by
      unfold updRow
      rw [if_pos ⟨h1, h2⟩]
    simp [hupd]

/-- Witness for C8 at c = 1 on a one-row table with prior age 50. -/
theorem batch_update_idempotent_witness :
    (benchmark_batch_update 1 [⟨1, "a", "b", 50⟩])[0]?
      = some { (⟨1, "a", "b", 50⟩ : Row) with age := 30 + (1 - 1) % 30 } :=
  (batch_update_idempotent 1 [⟨1, "a", "b", 50⟩]).2 0 ⟨1, "a", "b", 50⟩
    (by decide) (by decide) (by decide)

/-- C9: batch update(c) touches only the age column and only rows whose id is
in `[1, c]`: no row is added or removed, every row keeps its id, name and
email, and a row whose id lies outside `[1, c]` is entirely unchanged. -/
theorem batch_update_frame (c : Nat) (t : Table) :
    (benchmark_batch_update c t).length = t.length ∧
    (∀ (j : Nat) (r : Row), t[j]? = some r →
      ∃ r2, (benchmark_batch_update c t)[j]? = some r2 ∧
        r2.id = r.id ∧ r2.name = r.name ∧ r2.email = r.email ∧
        (¬ (1 ≤ r.id ∧ r.id ≤ c) → r2 = r)) := by
  constructor
  · rw [batch_update_eq_map]
    simp
  · intro j r hj
    refine ⟨updRow c r, ?_, ?_, ?_, ?_, ?_⟩
    · rw [batch_update_eq_map, List.getElem?_map, hj]
      rfl
    · unfold updRow
      by_cases h : 1 ≤ r.id ∧ r.id ≤ c
      · rw [if_pos h]
      · rw [if_neg h]
    · unfold updRow
      by_cases h : 1 ≤ r.id ∧ r.id ≤ c
      · rw [if_pos h]
      · rw [if_neg h]
    · unfold updRow
      by_cases h : 1 ≤ r.id ∧ r.id ≤ c
      · rw [if_pos h]
      · rw [if_neg h]
    · intro h
      unfold updRow
      rw [if_neg h]

/-- Witness for C9 at c = 1 on a one-row table whose row id 2 lies outside
the updated range. -/
theorem batch_update_frame_witness :
    ∃ r2, (benchmark_batch_update 1 [⟨2, "a", "b", 7⟩])[0]? = some r2 ∧
      r2.id = (⟨2, "a", "b", 7⟩ : Row).id ∧
      r2.name = (⟨2, "a", "b", 7⟩ : Row).name ∧
      r2.email = (⟨2, "a", "b", 7⟩ : Row).email ∧
      (¬ (1 ≤ (⟨2, "a", "b", 7⟩ : Row).id ∧ (⟨2, "a", "b", 7⟩ : Row).id ≤ 1) →
        r2 = ⟨2, "a", "b", 7⟩) :=
  (batch_update_frame 1 [⟨2, "a", "b", 7⟩]).2 0 ⟨2, "a", "b", 7⟩ (by decide)

/-- Number of rows of `t` whose age equals `a` — the `COUNT(*)` of the group
keyed by `a` in `benchmark_complex_select`. -/
def ageCount (t : Table) (a : Nat) : Nat :=
  (t.filter (fun r => decide (r.age = a))).length

/-- Insert a group row into a list already sorted by descending count,
keeping it sorted. -/
def insertByCountDesc (x : Nat × Nat) : List (Nat × Nat) → List (Nat × Nat)
  | [] => [x]
  | y :: ys => if y.2 ≤ x.2 then x :: y :: ys else y :: insertByCountDesc x ys

/-- `ORDER BY count DESC` (source line 85): sort the group rows by
descending count. -/
def sortByCountDesc (l : List (Nat × Nat)) : List (Nat × Nat) :=
  l.foldr insertByCountDesc []

/-- `benchmark_complex_select` (source lines 75–95):
`SELECT age, COUNT(*) as count, AVG(age) as avg_age FROM users
WHERE age BETWEEN 25 AND 50 GROUP BY age ORDER BY count DESC LIMIT 10`,
as the list of `(age, count)` group rows.  `GROUP BY age` yields one group per
age value in `[25, 50]` that occurs in the table, `ORDER BY count DESC`
orders the groups by descending count, and `LIMIT 10` keeps the first ten. -/
def benchmark_complex_select (t : Table) : List (Nat × Nat) :=
  (sortByCountDesc ((((List.range 26).map (fun k => 25 + k)).filter
      (fun a => decide (ageCount t a ≠ 0))).map
      (fun a => (a, ageCount t a)))).take 10

theorem mem_insertByCountDesc (x a : Nat × Nat) (l : List (Nat × Nat)) :
    a ∈ insertByCountDesc x l ↔ a = x ∨ a ∈ l := by
  induction l with
  | nil => simp [insertByCountDesc]
  | cons y ys ih =>
    unfold insertByCountDesc
    by_cases h : y.2 ≤ x.2
    · rw [if_pos h]
      simp
    · rw [if_neg h]
      simp only [List.mem_cons, ih]
      tauto

theorem pairwise_insertByCountDesc (x : Nat × Nat) (l : List (Nat × Nat))
    (hl : l.Pairwise (fun p q => q.2 ≤ p.2)) :
    (insertByCountDesc x l).Pairwise (fun p q => q.2 ≤ p.2) := by
  induction l with
  | nil => simp [insertByCountDesc]
  | cons y ys ih =>
    rcases List.pairwise_cons.mp hl with ⟨hy, hys⟩
    unfold insertByCountDesc
    by_cases h : y.2 ≤ x.2
    · rw [if_pos h]
      apply List.pairwise_cons.mpr
      refine ⟨?_, hl⟩
      intro b hb
      rcases List.mem_cons.mp hb with rfl | hb
      · exact h
      · exact le_trans (hy b hb) h
    · rw [if_neg h]
      apply List.pairwise_cons.mpr
      refine ⟨?_, ih hys⟩
      intro b hb
      rcases (mem_insertByCountDesc x b ys).mp hb with rfl | hb
      · omega
      · exact hy b hb

theorem mem_sortByCountDesc (a : Nat × Nat) (l : List (Nat × Nat)) :
    a ∈ sortByCountDesc l ↔ a ∈ l := by
  induction l with
  | nil => simp [sortByCountDesc]
  | cons y ys ih =>
    unfold sortByCountDesc at ih ⊢
    simp only [List.foldr_cons, mem_insertByCountDesc, ih, List.mem_cons]

theorem pairwise_sortByCountDesc (l : List (Nat × Nat)) :
    (sortByCountDesc l).Pairwise (fun p q => q.2 ≤ p.2) := by
  induction l with
  | nil => simp [sortByCountDesc]
  | cons y ys ih =>
    unfold sortByCountDesc at ih ⊢
    exact pairwise_insertByCountDesc y _ ih

theorem sum_ages_filter (t : Table) (a : Nat) :
    ((t.filter (fun r => decide (r.age = a))).map Row.age).sum
      = ageCount t a * a := by
  unfold ageCount
  induction t with
  | nil => simp
  | cons r rs ih =>
    by_cases h : r.age = a
    · have hd : decide (r.age = a) = true := by
        simp [h]
      rw [List.filter_cons, if_pos hd, List.map_cons, List.sum_cons,
        List.length_cons, ih, h]
      ring
    · have hd : ¬ (decide (r.age = a) = true) := by
        simp [h]
      simp only [List.filter_cons]
      rw [if_neg hd]
      exact ih

/-- C5: the complex select returns at most 10 groups, each keyed by an age in
[25, 50] that occurs in the table; each group's count is the number of rows
with that age, the group's average age (sum of the ages in the group divided
by its count, as a rational) equals its key, and the groups appear in
descending count order. -/
theorem complex_select_correct (t : Table) :
    (benchmark_complex_select t).length ≤ 10 ∧
    (∀ p ∈ benchmark_complex_select t,
      25 ≤ p.1 ∧ p.1 ≤ 50 ∧ p.2 = ageCount t p.1 ∧ p.2 ≠ 0 ∧
      (((t.filter (fun r => decide (r.age = p.1))).map Row.age).sum : ℚ) / p.2
        = p.1) ∧
    (benchmark_complex_select t).Pairwise (fun p q => q.2 ≤ p.2) := by
  refine ⟨?_, ?_, ?_⟩
  · unfold benchmark_complex_select
    rw [List.length_take]
    exact min_le_left 10 _
  · intro p hp
    have hp2 : p ∈ sortByCountDesc ((((List.range 26).map (fun k => 25 + k)).filter
        (fun a => decide (ageCount t a ≠ 0))).map (fun a => (a, ageCount t a))) :=
      (List.take_sublist 10 _).mem hp
    rw [mem_sortByCountDesc, List.mem_map] at hp2
    obtain ⟨a, ha, rfl⟩ := hp2
    rw [List.mem_filter] at ha
    obtain ⟨har, hcount⟩ := ha
    rw [List.mem_map] at har
    obtain ⟨k, hk, rfl⟩ := har
    rw [List.mem_range] at hk
    have hcount2 : ageCount t (25 + k) ≠ 0 := by
      simpa using hcount
    refine ⟨by omega, by omega, rfl, hcount2, ?_⟩
    rw [sum_ages_filter]
    push_cast
    rw [mul_comm]
    rw [mul_div_assoc]
    rw [div_self (by exact_mod_cast hcount2)]
    ring
  · exact (pairwise_sortByCountDesc _).sublist (List.take_sublist 10 _)

/-- Witness for C5 on a one-row table with age 30: the single group (30, 1). -/
theorem complex_select_correct_witness :
    25 ≤ ((30, 1) : Nat × Nat).1 ∧ ((30, 1) : Nat × Nat).1 ≤ 50 ∧
    ((30, 1) : Nat × Nat).2 = ageCount [⟨1, "u", "e", 30⟩] ((30, 1) : Nat × Nat).1 ∧
    ((30, 1) : Nat × Nat).2 ≠ 0 ∧
    ((([⟨1, "u", "e", 30⟩] : Table).filter
        (fun r => decide (r.age = ((30, 1) : Nat × Nat).1))).map Row.age).sum
      / (((30, 1) : Nat × Nat).2 : ℚ) = ((30, 1) : Nat × Nat).1 :=
  (complex_select_correct [⟨1, "u", "e", 30⟩]).2.1 (30, 1) (by decide)

/-- A calendar date, as encoded by the `random_date` string
`"YYYY-MM-DD"` built at source line 217. -/
structure Date where
  year : Nat
  month : Nat
  day : Nat
deriving Repr, DecidableEq

/-- The date `benchmark_custom_query` synthesizes from the three draws
`random.randint(2020, 2025)`, `random.randint(1, 12)`, `random.randint(1, 28)`
(source lines 214–217). -/
def synthDate (y m d : Nat) : Date := ⟨y, m, d⟩

/-- The ranges of the three `random.randint` draws; `randint(a, b)` returns a
uniformly random integer with both endpoints included. -/
def validDraw (y m d : Nat) : Prop :=
  (2020 ≤ y ∧ y ≤ 2025) ∧ (1 ≤ m ∧ m ≤ 12) ∧ (1 ≤ d ∧ d ≤ 28)

/-- Gregorian leap year. -/
def isLeap (y : Nat) : Bool :=
  (decide (y % 4 = 0) && decide (y % 100 ≠ 0)) || decide (y % 400 = 0)

/-- Days in a Gregorian month. -/
def daysInMonth (y m : Nat) : Nat :=
  if m = 2 then (if isLeap y then 29 else 28)
  else if m = 4 ∨ m = 6 ∨ m = 9 ∨ m = 11 then 30
  else 31

/-- A valid Gregorian calendar date. -/
def isValidDate (dt : Date) : Bool :=
  decide (1 ≤ dt.month) && decide (dt.month ≤ 12) &&
  decide (1 ≤ dt.day) && decide (dt.day ≤ daysInMonth dt.year dt.month)

/-- Calendar order on dates: year, then month, then day. -/
def dateLE (a b : Date) : Bool :=
  decide (a.year < b.year) ||
  (decide (a.year = b.year) && (decide (a.month < b.month) ||
    (decide (a.month = b.month) && decide (a.day ≤ b.day))))

/-- Membership in the closed date interval [2020-01-01, 2025-12-28]. -/
def inDateInterval (dt : Date) : Bool :=
  dateLE ⟨2020, 1, 1⟩ dt && dateLE dt ⟨2025, 12, 28⟩

/-- Whether the three draws can produce `dt` at all: exactly the dates with
year in [2020, 2025], month in [1, 12] and day in [1, 28]. -/
def producible (dt : Date) : Bool :=
  decide (2020 ≤ dt.year) && decide (dt.year ≤ 2025) &&
  decide (1 ≤ dt.month) && decide (dt.month ≤ 12) &&
  decide (1 ≤ dt.day) && decide (dt.day ≤ 28)

theorem producible_iff (dt : Date) :
    producible dt = true ↔ ∃ y m d, validDraw y m d ∧ synthDate y m d = dt := by
  constructor
  · intro h
    obtain ⟨dy, dm, dd⟩ := dt
    refine ⟨dy, dm, dd, ?_, rfl⟩
    unfold producible at h
    simp only [Bool.and_eq_true, decide_eq_true_eq] at h
    unfold validDraw
    omega
  · rintro ⟨y, m, d, hv, rfl⟩
    unfold producible synthDate
    unfold validDraw at hv
    simp only [Bool.and_eq_true, decide_eq_true_eq]
    omega

theorem daysInMonth_ge (y m : Nat) : 28 ≤ daysInMonth y m := by
  unfold daysInMonth
  split_ifs <;> omega

/-- C2 counterexample: the date 2020-01-29 is a valid calendar date inside
[2020-01-01, 2025-12-28], yet the synthesized date can never equal it — the
day draw is capped at 28 — so not every date of the interval can be produced,
and the dates of the interval are not equally likely. -/
theorem custom_query_date_interval_counterexample :
    isValidDate ⟨2020, 1, 29⟩ = true ∧
    inDateInterval ⟨2020, 1, 29⟩ = true ∧
    producible ⟨2020, 1, 29⟩ = false := by
  decide

/-- C2 amended: every draw triple yields a valid calendar date lying inside
[2020-01-01, 2025-12-28] whose day is at most 28; distinct draw triples yield
distinct dates (so with the three draws independent and uniform, each
producible date is equally likely, at probability 1/2016); and the producible
dates are exactly those with year in [2020, 2025], month in [1, 12] and day in
[1, 28] — dates of the interval with day 29–31 are never produced. -/
theorem custom_query_date_uniform_on_support :
    (∀ y m d, validDraw y m d →
      isValidDate (synthDate y m d) = true ∧
      inDateInterval (synthDate y m d) = true ∧
      producible (synthDate y m d) = true) ∧
    (∀ y m d y2 m2 d2, synthDate y m d = synthDate y2 m2 d2 →
      y = y2 ∧ m = m2 ∧ d = d2) ∧
    (∀ dt : Date, producible dt = true →
      ∃ y m d, validDraw y m d ∧ synthDate y m d = dt) := by
  refine ⟨?_, ?_, fun dt => (producible_iff dt).mp⟩
  · intro y m d hv
    unfold validDraw at hv
    refine ⟨?_, ?_, ?_⟩
    · unfold isValidDate synthDate
      simp only [Bool.and_eq_true, decide_eq_true_eq]
      have := daysInMonth_ge y m
      omega
    · unfold inDateInterval dateLE synthDate
      simp only [Bool.and_eq_true, Bool.or_eq_true, decide_eq_true_eq]
      omega
    · unfold producible synthDate
      simp only [Bool.and_eq_true, decide_eq_true_eq]
      omega
  · intro y m d y2 m2 d2 h
    unfold synthDate at h
    simp only [Date.mk.injEq] at h
    exact h

/-- Witness for the amended C2 at the draw (2021, 2, 28). -/
theorem custom_query_date_uniform_on_support_witness :
    isValidDate (synthDate 2021 2 28) = true ∧
    inDateInterval (synthDate 2021 2 28) = true ∧
    producible (synthDate 2021 2 28) = true :=
  custom_query_date_uniform_on_support.1 2021 2 28
    (by unfold validDraw; omega)

/-- Python integer floor division `//`, which raises `ZeroDivisionError` when
the divisor is zero. -/
def floorDiv (a b : Nat) : Except String Nat :=
  if b = 0 then Except.error "ZeroDivisionError" else Except.ok (a / b)

/-- The four per-query average row counts `total_rows<k> // iterations`
printed at the end of `benchmark_custom_query` (source lines 246–249). -/
def customQueryReport (t1 t2 t3 t4 iterations : Nat) :
    Except String (Nat × Nat × Nat × Nat) := do
  let a1 ← floorDiv t1 iterations
  let a2 ← floorDiv t2 iterations
  let a3 ← floorDiv t3 iterations
  let a4 ← floorDiv t4 iterations
  pure (a1, a2, a3, a4)

/-- The iteration count both call sites of `benchmark_custom_query` pass
(source lines 267 and 323). -/
def mainCustomQueryIterations : Nat := 10

/-- C10: computing the report with iterations = 0 raises ZeroDivisionError;
with iterations ≥ 1 all four integer divisions are well-defined and the report
is produced; both call sites in `main` pass 10, satisfying the precondition. -/
theorem custom_query_report_division (t1 t2 t3 t4 : Nat) :
    customQueryReport t1 t2 t3 t4 0 = Except.error "ZeroDivisionError" ∧
    (∀ n, 1 ≤ n →
      customQueryReport t1 t2 t3 t4 n
        = Except.ok (t1 / n, t2 / n, t3 / n, t4 / n)) ∧
    1 ≤ mainCustomQueryIterations := by
  refine ⟨rfl, ?_, by decide⟩
  intro n hn
  have hne : ¬ (n = 0) := by omega
  simp [customQueryReport, floorDiv, hne]
  rfl

/-- Witness for C10 at the call sites' iteration count 10. -/
theorem custom_query_report_division_witness :
    customQueryReport 30 4 7 9 10 = Except.ok (30 / 10, 4 / 10, 7 / 10, 9 / 10) :=
  (custom_query_report_division 30 4 7 9).2.1 10 (by decide)

/-- The random values drawn for one iteration of the custom-query loop
(source lines 214–220 and 228): the synthesized date, the page number, and
the value behind `random.choice` on the listing result. -/
structure IterDraw where
  date : Date
  page : Nat
  pick : Nat

/-- The external read-only catalog, modelled as an opaque oracle: the
`dvd_id` column of the rows the listing query returns for a (date, limit,
offset) triple, and the row counts the three dependent queries return for a
given `dvd_id` (source lines 138–201). -/
structure Catalog where
  listing : Date → Nat → Nat → List String
  detailRows : String → Nat
  relationshipRows : String → Nat
  similarRows : String → Nat

/-- The accumulated row counts `total_rows1..total_rows4`
(source lines 207–210). -/
structure Totals where
  rows1 : Nat
  rows2 : Nat
  rows3 : Nat
  rows4 : Nat
deriving Repr, DecidableEq

/-- One iteration of the `benchmark_custom_query` loop (source lines
212–240): run the listing query with `limit = 100` and
`offset = page_number * 100`, add its row count to `total_rows1`, and — only
when it returned at least one row — draw a `dvd_id` from the result
(`random.choice`) and run the detail, relationships and similar queries with
it, adding their row counts. -/
def customQueryIter (db : Catalog) (dr : IterDraw) (tot : Totals) : Totals :=
  let rows1 := db.listing dr.date 100 (dr.page * 100)
  let tot1 : Totals := { tot with rows1 := tot.rows1 + rows1.length }
  if h : 0 < rows1.length then
    let key := rows1.get ⟨dr.pick % rows1.length, Nat.mod_lt _ h⟩
    { tot1 with
        rows2 := tot1.rows2 + db.detailRows key
        rows3 := tot1.rows3 + db.relationshipRows key
        rows4 := tot1.rows4 + db.similarRows key }
  else tot1

/-- The custom-query loop over its drawn iterations, starting from zero
totals (source lines 207–241). -/
def customQueryLoop (db : Catalog) (draws : List IterDraw) : Totals :=
  draws.foldl (fun tot dr => customQueryIter db dr tot) ⟨0, 0, 0, 0⟩

/-- C7: in any iteration, if the listing query returns at least one row, all
three dependent queries run with a key drawn from that listing result and each
total grows by that key's count; if the listing query returns zero rows, no
dependent query runs and rows2, rows3, rows4 are unchanged (and rows1 too,
growing by zero). -/
theorem custom_query_iter_dependent (db : Catalog) (dr : IterDraw) (tot : Totals) :
    (db.listing dr.date 100 (dr.page * 100) ≠ [] →
      ∃ key ∈ db.listing dr.date 100 (dr.page * 100),
        customQueryIter db dr tot =
          ⟨tot.rows1 + (db.listing dr.date 100 (dr.page * 100)).length,
            tot.rows2 + db.detailRows key,
            tot.rows3 + db.relationshipRows key,
            tot.rows4 + db.similarRows key⟩) ∧
    (db.listing dr.date 100 (dr.page * 100) = [] →
      customQueryIter db dr tot = tot) := by
  constructor
  · intro hne
    have hlen : 0 < (db.listing dr.date 100 (dr.page * 100)).length :=
      List.length_pos.mpr hne
    refine ⟨(db.listing dr.date 100 (dr.page * 100)).get
      ⟨dr.pick % (db.listing dr.date 100 (dr.page * 100)).length,
        Nat.mod_lt _ hlen⟩, List.get_mem _ _ _, ?_⟩
    unfold customQueryIter
    dsimp only
    rw [dif_pos hlen]
  · intro hemp
    unfold customQueryIter
    simp [hemp]

/-- A concrete catalog for the C7 witness: the listing query always returns
the single `dvd_id` "A"; the dependent queries return 1, 3 and 6 rows. -/
def witnessCatalog : Catalog :=
  ⟨fun _ _ _ => ["A"], fun _ => 1, fun _ => 3, fun _ => 6⟩

/-- Witness for C7: with `witnessCatalog`, an iteration starting from zero
totals runs the three dependent queries on the key "A". -/
theorem custom_query_iter_dependent_witness :
    ∃ key ∈ witnessCatalog.listing ⟨2020, 1, 1⟩ 100 (0 * 100),
      customQueryIter witnessCatalog ⟨⟨2020, 1, 1⟩, 0, 0⟩ ⟨0, 0, 0, 0⟩ =
        ⟨(0 : Nat) + (witnessCatalog.listing ⟨2020, 1, 1⟩ 100 (0 * 100)).length,
          (0 : Nat) + witnessCatalog.detailRows key,
          (0 : Nat) + witnessCatalog.relationshipRows key,
          (0 : Nat) + witnessCatalog.similarRows key⟩ :=
  (custom_query_iter_dependent witnessCatalog ⟨⟨2020, 1, 1⟩, 0, 0⟩ ⟨0, 0, 0, 0⟩).1
    (by simp [witnessCatalog])

/-- Events observable on the connection `benchmark_custom_query` opens
(source lines 134, 222–240, 244). -/
inductive Ev where
  | connOpen
  | connClose
  | query (iteration : Nat)
deriving Repr, DecidableEq

/-- The query loop of `benchmark_custom_query`, iteration `k` logging
`Ev.query k`: `oks` says, per iteration, whether its statements succeed;
`false` means the database raises there and the exception aborts the loop at
once. -/
def customQueryIters (oks : List Bool) (k : Nat) (log : List Ev) :
    List Ev × Except String Unit :=
  match oks with
  | [] => (log, Except.ok ())
  | ok :: rest =>
    if ok then customQueryIters rest (k + 1) (log ++ [Ev.query k])
    else (log ++ [Ev.query k], Except.error "db error")

/-- The event trace of `benchmark_custom_query` (source lines 128–251): the
function opens its connection (line 134), runs the loop, and reaches
`conn.close()` (line 244) only on the straight-line path — an exception
raised in the loop propagates out of the function immediately, skipping the
close; there is no try/finally or context manager around the connection. -/
def benchmark_custom_query_trace (oks : List Bool) :
    List Ev × Except String Unit :=
  match customQueryIters oks 0 [Ev.connOpen] with
  | (log, Except.ok _) => (log ++ [Ev.connClose], Except.ok ())
  | (log, Except.error e) => (log, Except.error e)

theorem customQueryIters_all_ok (oks : List Bool) (h : ∀ b ∈ oks, b = true)
    (k : Nat) (log : List Ev) :
    ∃ qs, customQueryIters oks k log = (log ++ qs, Except.ok ())
      ∧ Ev.connClose ∉ qs ∧ Ev.connOpen ∉ qs := by
  induction oks generalizing k log with
  | nil =>
    refine ⟨[], ?_, by simp, by simp⟩
    simp [customQueryIters]
  | cons b rest ih =>
    have hb : b = true := h b (List.mem_cons_self b rest)
    have hrest : ∀ x ∈ rest, x = true := fun x hx => h x (List.mem_cons_of_mem b hx)
    obtain ⟨qs, hq, hc, ho⟩ := ih hrest (k + 1) (log ++ [Ev.query k])
    refine ⟨Ev.query k :: qs, ?_, by simp [hc], by simp [ho]⟩
    unfold customQueryIters
    rw [if_pos hb, hq]
    simp

theorem customQueryIters_fail (oks : List Bool) (h : false ∈ oks)
    (k : Nat) (log : List Ev) :
    ∃ qs, customQueryIters oks k log = (log ++ qs, Except.error "db error")
      ∧ Ev.connClose ∉ qs ∧ Ev.connOpen ∉ qs := by
  induction oks generalizing k log with
  | nil => simp at h
  | cons b rest ih =>
    by_cases hb : b = true
    · have hrest : false ∈ rest := by
        rcases List.mem_cons.mp h with heq | hmem
        · exact absurd heq.symm (by simp [hb])
        · exact hmem
      obtain ⟨qs, hq, hc, ho⟩ := ih hrest (k + 1) (log ++ [Ev.query k])
      refine ⟨Ev.query k :: qs, ?_, by simp [hc], by simp [ho]⟩
      unfold customQueryIters
      rw [if_pos hb, hq]
      simp
    · have hb2 : b = false := by
        cases b
        · rfl
        · exact absurd rfl hb
      refine ⟨[Ev.query k], ?_, by simp, by simp⟩
      unfold customQueryIters
      rw [hb2]
      simp

/-- C3 counterexample: on a run whose first iteration raises a database
error, the trace of `benchmark_custom_query` records the connection being
opened but never closed, and the function exits with the error — the open
connection is leaked on this exit path. -/
theorem connection_leak_counterexample :
    Ev.connOpen ∈ (benchmark_custom_query_trace [false]).1 ∧
    Ev.connClose ∉ (benchmark_custom_query_trace [false]).1 ∧
    (benchmark_custom_query_trace [false]).2 = Except.error "db error" :=
  ⟨by decide, by decide, rfl⟩

/-- C3 amended: `benchmark_custom_query` closes the connection it opens
exactly once on every error-free run, but on any run where a database error is
raised partway through the loop it exits with the connection still open — the
explicit close sits only on the normal-completion path, and error paths leave
cleanup to interpreter exit. -/
theorem connection_closed_iff_no_error (oks : List Bool) :
    ((∀ b ∈ oks, b = true) →
      (benchmark_custom_query_trace oks).1.count Ev.connOpen = 1 ∧
      (benchmark_custom_query_trace oks).1.count Ev.connClose = 1 ∧
      (benchmark_custom_query_trace oks).2 = Except.ok ()) ∧
    (false ∈ oks →
      Ev.connOpen ∈ (benchmark_custom_query_trace oks).1 ∧
      Ev.connClose ∉ (benchmark_custom_query_trace oks).1 ∧
      (benchmark_custom_query_trace oks).2 = Except.error "db error") := by
  constructor
  · intro h
    obtain ⟨qs, hq, hc, ho⟩ := customQueryIters_all_ok oks h 0 [Ev.connOpen]
    unfold benchmark_custom_query_trace
    rw [hq]
    refine ⟨?_, ?_, rfl⟩
    · simp [List.count_append, List.count_eq_zero.mpr hc, List.count_eq_zero.mpr ho,
        List.count_cons, List.count_nil]
    · simp [List.count_append, List.count_eq_zero.mpr hc, List.count_eq_zero.mpr ho,
        List.count_cons, List.count_nil]
  · intro h
    obtain ⟨qs, hq, hc, ho⟩ := customQueryIters_fail oks h 0 [Ev.connOpen]
    unfold benchmark_custom_query_trace
    rw [hq]
    refine ⟨by simp, ?_, rfl⟩
    intro hmem
    rcases List.mem_append.mp hmem with hin | hin
    · simp at hin
    · exact hc hin

/-- Witness for the amended C3 on the error-free two-iteration run. -/
theorem connection_closed_iff_no_error_witness :
    (benchmark_custom_query_trace [true, true]).1.count Ev.connOpen = 1 ∧
    (benchmark_custom_query_trace [true, true]).1.count Ev.connClose = 1 ∧
    (benchmark_custom_query_trace [true, true]).2 = Except.ok () :=
  (connection_closed_iff_no_error [true, true]).1 (by decide)
